import Mathlib

/-!
Verification of the `encoding_prompter` repository's response parser
(`src/encoding_prompter/parser.py`) and document loader
(`src/encoding_prompter/document.py`) against its specification.

The Python code is shallowly embedded: regular-expression searches are
realized as character-list scanning functions that reproduce the
backtracking behaviour of the concrete patterns used by the source
(leftmost search; greedy `\s*`; lazy `(.+?)` bounded by a lookahead).
All functions are total and executable.
-/

namespace EncodingPrompter

/-- Whitespace characters recognized by Python's `\s`, `str.strip()` and
`str.split` on ASCII text: space, tab, newline, carriage return, vertical
tab and form feed. -/
def pyWs (c : Char) : Bool :=
  c = ' ' || c = '\t' || c = '\n' || c = '\r' || c = '\x0b' || c = '\x0c'

/-- ASCII lower-casing, as applied by `re.IGNORECASE` to the ASCII
pattern letters used in `parser.py`. -/
def lowerChar (c : Char) : Char := c.toLower

/-- Case-insensitive prefix match: `pat` is given in lower case and is
compared against the lower-cased text.  Models matching the literal parts
of a pattern under `re.IGNORECASE`.  Returns the remaining text. -/
def dropCI : List Char → List Char → Option (List Char)
  | [], cs => some cs
  | _ :: _, [] => none
  | p :: ps, c :: cs => if p = lowerChar c then dropCI ps cs else none

/-- Case-insensitive test that `cs` starts with the (lower-case) pattern
`pat`. -/
def startsWithCI (pat cs : List Char) : Bool :=
  (dropCI pat cs).isSome

/-- Case-sensitive literal prefix drop (for the case-sensitive pattern in
`_extract_speakers`). -/
def dropLit : List Char → List Char → Option (List Char)
  | [], cs => some cs
  | _ :: _, [] => none
  | p :: ps, c :: cs => if p = c then dropLit ps cs else none

/-- Python `str.strip()` on a character list: remove leading and trailing
whitespace. -/
def stripChars (cs : List Char) : List Char :=
  ((cs.dropWhile pyWs).reverse.dropWhile pyWs).reverse

/-- Python `str.strip()`. -/
def pyStrip (s : String) : String :=
  ⟨stripChars s.data⟩

/-- Numeric value of a list of decimal digits (most significant first). -/
def natOfDigits (ds : List Char) : Nat :=
  ds.foldl (fun acc c => 10 * acc + (c.toNat - 48)) 0

/-- Python `int(s)` on the strings that can reach it in `parser.py`:
optional surrounding whitespace, an optional sign, then at least one
decimal digit.  Returns `none` where Python raises `ValueError`. -/
def pyInt? (s : String) : Option Int :=
  match stripChars s.data with
  | [] => none
  | c :: ds =>
    if c = '-' then
      if ds ≠ [] && ds.all Char.isDigit then some (-(natOfDigits ds : Int)) else none
    else if c = '+' then
      if ds ≠ [] && ds.all Char.isDigit then some ((natOfDigits ds : Int)) else none
    else if (c :: ds).all Char.isDigit then some ((natOfDigits (c :: ds) : Int)) else none

/-- First run of decimal digits in `s` (the `re.search(r"\d+", ...)`
fallback of `_parse_block`), if any. -/
def firstDigitRun? (s : String) : Option String :=
  go s.data
where
  go : List Char → Option String
    | [] => none
    | c :: cs => if c.isDigit then some ⟨c :: cs.takeWhile Char.isDigit⟩ else go cs

end EncodingPrompter

namespace EncodingPrompter

/-! ## `parser.py` — response parsing -/

/-- `EncodingInstance` from `parser.py`: a single identified construct
instance. -/
structure EncodingInstance where
  doc_id : String
  speaker_id : String
  construct : String
  quote : String
  confidence : Int
  deriving Repr, DecidableEq

/-- The block-split lookahead of `parse_response`: text starting
(case-insensitively) with `DOC_ID:` or `DOC ID:`. -/
def isMarkerAt (cs : List Char) : Bool :=
  startsWithCI "doc_id:".data cs || startsWithCI "doc id:".data cs

/-- `re.split(r"\n(?=DOC_ID:|DOC ID:)", text, flags=re.IGNORECASE)` on a
character list: cut at every newline immediately followed by a marker;
the newline is consumed, the marker stays with the following block. -/
def splitChars : List Char → List (List Char)
  | [] => [[]]
  | c :: cs =>
    if c = '\n' && isMarkerAt cs then
      [] :: splitChars cs
    else
      match splitChars cs with
      | [] => [[c]]
      | b :: bs => (c :: b) :: bs

/-- The block list produced by line 54 of `parser.py`. -/
def splitBlocks (s : String) : List String :=
  (splitChars s.data).map fun l => ⟨l⟩

/-- The lazy capture `(.+?)(?=LOOK)` after the first character has been
consumed: keep consuming characters while the lookahead fails. -/
def lazyCaptureGo (look : List Char → Bool) : List Char → List Char
  | [] => []
  | c :: cs => if look (c :: cs) then [] else c :: lazyCaptureGo look cs

/-- The `\s*(.+?)(?=LOOK)` tail of the field patterns, applied to the text
following the label's colon.  The greedy `\s*` consumes the maximal
whitespace run; if nothing remains it backtracks one step so that the
mandatory `(.+?)` can consume the final whitespace character (the
lookahead alternatives all include end-of-input).  Returns `none` exactly
when no character at all follows the colon. -/
def captureAfterColon (look : List Char → Bool) (rest : List Char) : Option (List Char) :=
  match rest.dropWhile pyWs with
  | c :: cs => some (c :: lazyCaptureGo look cs)
  | [] =>
    match (rest.takeWhile pyWs).reverse with
    | [] => none
    | c :: _ => some [c]

/-- `re.search` driver: try the pattern at each position from the left,
returning the first successful capture. -/
def searchField (tryAt : List Char → Option (List Char)) : List Char → Option (List Char)
  | [] => tryAt []
  | c :: cs =>
    match tryAt (c :: cs) with
    | some v => some v
    | none => searchField tryAt (c :: cs).tail

/-- Match a two-word label such as `DOC[_\s]?ID:` at the current
position: the first word, then an optional underscore or whitespace
character (greedy: tried with the separator first), then the second word
with its colon.  Returns the text after the colon. -/
def matchLabel2 (w1 w2 : List Char) (cs : List Char) : Option (List Char) :=
  match dropCI w1 cs with
  | none => none
  | some rest =>
    match rest with
    | [] => dropCI w2 []
    | c :: rest2 =>
      if c = '_' || pyWs c then
        match dropCI w2 rest2 with
        | some r => some r
        | none => dropCI w2 rest
      else dropCI w2 rest

/-- Match a one-word label such as `CONSTRUCT:` at the current position. -/
def matchLabel1 (w : List Char) (cs : List Char) : Option (List Char) :=
  dropCI w cs

/-- Lookahead `(?=\n|SPEAKER|$)` of the `doc_id` pattern. -/
def lookDoc (cs : List Char) : Bool :=
  match cs with
  | [] => true
  | c :: _ => c = '\n' || startsWithCI "speaker".data cs

/-- Lookahead `(?=\n|CONSTRUCT|$)` of the `speaker_id` pattern. -/
def lookSpeaker (cs : List Char) : Bool :=
  match cs with
  | [] => true
  | c :: _ => c = '\n' || startsWithCI "construct".data cs

/-- Lookahead `(?=\n|QUOTE|$)` of the `construct` pattern. -/
def lookConstruct (cs : List Char) : Bool :=
  match cs with
  | [] => true
  | c :: _ => c = '\n' || startsWithCI "quote".data cs

/-- Lookahead `(?=\n(?:CONFIDENCE|DOC)|$)` of the `quote` pattern: a
newline immediately followed by `CONFIDENCE` or `DOC`, or end of input. -/
def lookQuote (cs : List Char) : Bool :=
  match cs with
  | [] => true
  | c :: rest =>
    c = '\n' && (startsWithCI "confidence".data rest || startsWithCI "doc".data rest)

/-- The stripped capture of `DOC[_\s]?ID:\s*(.+?)(?=\n|SPEAKER|$)`
searched over the block (line 84 of `parser.py`). -/
def docIdValue (block : String) : Option String :=
  (searchField (fun cs => (matchLabel2 "doc".data "id:".data cs).bind
    (captureAfterColon lookDoc)) block.data).map fun l => pyStrip ⟨l⟩

/-- The stripped capture of `SPEAKER[_\s]?ID:\s*(.+?)(?=\n|CONSTRUCT|$)`
(line 85 of `parser.py`). -/
def speakerIdValue (block : String) : Option String :=
  (searchField (fun cs => (matchLabel2 "speaker".data "id:".data cs).bind
    (captureAfterColon lookSpeaker)) block.data).map fun l => pyStrip ⟨l⟩

/-- The stripped capture of `CONSTRUCT:\s*(.+?)(?=\n|QUOTE|$)`
(line 86 of `parser.py`). -/
def constructValue (block : String) : Option String :=
  (searchField (fun cs => (matchLabel1 "construct:".data cs).bind
    (captureAfterColon lookConstruct)) block.data).map fun l => pyStrip ⟨l⟩

/-- The stripped capture of `QUOTE:\s*(.+?)(?=\n(?:CONFIDENCE|DOC)|$)`
(line 87 of `parser.py`). -/
def quoteValue (block : String) : Option String :=
  (searchField (fun cs => (matchLabel1 "quote:".data cs).bind
    (captureAfterColon lookQuote)) block.data).map fun l => pyStrip ⟨l⟩

/-- Attempt `CONFIDENCE:\s*(\d+)` at the current position: the label,
then greedy whitespace, then at least one decimal digit; the capture is
the maximal digit run. -/
def tryConfidenceAt (cs : List Char) : Option (List Char) :=
  match matchLabel1 "confidence:".data cs with
  | none => none
  | some rest =>
    match (rest.dropWhile pyWs).takeWhile Char.isDigit with
    | [] => none
    | d :: ds => some (d :: ds)

/-- The stripped capture of `CONFIDENCE:\s*(\d+)` searched over the block
(line 88 of `parser.py`). -/
def confidenceValue (block : String) : Option String :=
  (searchField tryConfidenceAt block.data).map fun l => pyStrip ⟨l⟩

/-- Lines 100-107 of `_parse_block`: try `int(...)`; on failure fall back
to the first digit run; otherwise the sentinel `-1`. -/
def confidenceOf (cap : String) : Int :=
  match pyInt? cap with
  | some n => n
  | none =>
    match firstDigitRun? cap with
    | some ds =>
      match pyInt? ds with
      | some n => n
      | none => -1
    | none => -1

/-- `_parse_block` from `parser.py`: extract the five fields
independently; discard the block when no construct field matched;
default missing `doc_id` to the caller's default, missing `speaker_id`
and `quote` to the empty string, and missing confidence to `-1`. -/
def _parse_block (block : String) (default_doc_id : String) : Option EncodingInstance :=
  match constructValue block with
  | none => none
  | some con =>
    let confidence : Int :=
      match confidenceValue block with
      | none => -1
      | some cap => confidenceOf cap
    some
      { doc_id := (docIdValue block).getD default_doc_id
        speaker_id := (speakerIdValue block).getD ""
        construct := con
        quote := (quoteValue block).getD ""
        confidence := confidence }

/-- `parse_response` from `parser.py`: split into blocks, skip blank
blocks, parse each block, keep instances with a non-empty construct, and
override `doc_id` with the caller's non-empty `default_doc_id`. -/
def parse_response (response_text : String) (default_doc_id : String) : List EncodingInstance :=
  (splitBlocks response_text).foldl
    (fun instances block =>
      if pyStrip block = "" then instances
      else
        match _parse_block block default_doc_id with
        | none => instances
        | some instance_ =>
          if instance_.construct ≠ "" then
            instances ++
              [if default_doc_id ≠ "" then { instance_ with doc_id := default_doc_id }
               else instance_]
          else instances)
    []

/-- The instances contributed by one block of `parse_response`'s loop. -/
def blockContribution (default_doc_id : String) (block : String) : List EncodingInstance :=
  if pyStrip block = "" then []
  else
    match _parse_block block default_doc_id with
    | none => []
    | some instance_ =>
      if instance_.construct ≠ "" then
        [if default_doc_id ≠ "" then { instance_ with doc_id := default_doc_id }
         else instance_]
      else []

end EncodingPrompter

namespace EncodingPrompter

/-! ## `document.py` — document loading and speaker detection -/

/-- `Document` from `document.py`. -/
structure Document where
  doc_id : String
  content : String
  speakers : List String
  source_path : String
  deriving Repr, DecidableEq

/-- Character class `[A-Za-z0-9_-]` used by the speaker patterns. -/
def tokenChar (c : Char) : Bool :=
  c.isAlpha || c.isDigit || c = '_' || c = '-'

/-- Case-sensitive test that `cs` starts with the literal `pat`. -/
def startsWithLit (pat cs : List Char) : Bool :=
  (dropLit pat cs).isSome

/-- Substring test, Python's `pat in s`. -/
def containsSub (pat : List Char) : List Char → Bool
  | [] => pat.isEmpty
  | c :: cs => startsWithLit pat (c :: cs) || containsSub pat cs

/-- ASCII lower-casing of a string, Python's `str.lower()` on ASCII. -/
def lowerStr (s : String) : String :=
  ⟨s.data.map lowerChar⟩

/-- The `\s*\n([^\n]+)` tail of the header pattern in
`_extract_speakers`, applied to the text after a `SPEAKERS` occurrence.
The greedy `\s*` backtracks from the maximal whitespace run to the last
newline inside it that is followed by a non-newline character; the
capture is then the maximal `[^\n]+` run from there.  Implemented by
preferring deeper (later) cut points first. -/
def wsNlGo : List Char → List Char → Option (List Char)
  | [], _ => none
  | c :: w, r =>
    match wsNlGo w r with
    | some cap => some cap
    | none =>
      match w ++ r with
      | [] => none
      | x :: xs =>
        if c = '\n' && x ≠ '\n' then some (x :: xs.takeWhile (fun d => d ≠ '\n'))
        else none

/-- Capture of `\s*\n([^\n]+)` (see `wsNlGo`). -/
def wsNlCapture (rest : List Char) : Option (List Char) :=
  wsNlGo (rest.takeWhile pyWs) (rest.dropWhile pyWs)

/-- `re.search(r"SPEAKERS\s*\n([^\n]+)", content)`: leftmost occurrence
of the (case-sensitive) word `SPEAKERS` whose tail matches. -/
def searchHeader : List Char → Option (List Char)
  | [] => none
  | c :: cs =>
    match dropLit "SPEAKERS".data (c :: cs) with
    | some rest =>
      match wsNlCapture rest with
      | some cap => some cap
      | none => searchHeader cs
    | none => searchHeader cs

/-- Delimiter class of `re.split(r"[,\s]+", ...)`. -/
def headerDelim (c : Char) : Bool :=
  c = ',' || pyWs c

/-- Maximal runs of non-delimiter characters (the non-empty pieces of
`re.split(r"[,\s]+", ...)`; empty pieces are discarded by the
`if speaker` guard in the source). -/
def tokenRunsAux : List Char → List Char → List (List Char)
  | [], acc => if acc.isEmpty then [] else [acc.reverse]
  | c :: cs, acc =>
    if headerDelim c then
      if acc.isEmpty then tokenRunsAux cs [] else acc.reverse :: tokenRunsAux cs []
    else tokenRunsAux cs (c :: acc)

/-- The speakers contributed by the `SPEAKERS` header block
(lines 267-275 of `document.py`): tokens of the captured line that match
`^[A-Za-z0-9_-]+$`. -/
def headerTokens (content : String) : List String :=
  match searchHeader content.data with
  | none => []
  | some cap => ((tokenRunsAux cap []).filter (fun t => t.all tokenChar)).map fun l => ⟨l⟩

/-- Attempt `^([A-Z]{2,}-\d{3})\s{2,}` at a line start: two or more
upper-case letters, a hyphen, exactly three digits, then at least two
whitespace characters. -/
def tryP1 (cs : List Char) : Option (List Char) :=
  let u := cs.takeWhile Char.isUpper
  if u.length < 2 then none
  else
    match cs.drop u.length with
    | '-' :: d1 :: d2 :: d3 :: rest =>
      if d1.isDigit && d2.isDigit && d3.isDigit then
        match rest with
        | a :: b :: _ => if pyWs a && pyWs b then some (u ++ '-' :: [d1, d2, d3]) else none
        | _ => none
      else none
    | _ => none

/-- Attempt `^([A-Za-z0-9_-]+):\s*` at a line start. -/
def tryP2 (cs : List Char) : Option (List Char) :=
  match cs.takeWhile tokenChar with
  | [] => none
  | t :: ts =>
    match cs.drop (t :: ts).length with
    | ':' :: _ => some (t :: ts)
    | _ => none

/-- Attempt `^\[([A-Za-z0-9_-]+)\]\s*` at a line start. -/
def tryP3 : List Char → Option (List Char)
  | '[' :: rest =>
    (match rest.takeWhile tokenChar with
     | [] => none
     | t :: ts =>
       match rest.drop (t :: ts).length with
       | ']' :: _ => some (t :: ts)
       | _ => none)
  | _ => none

/-- All captures of a line-anchored pattern over the text
(`re.finditer` with `re.MULTILINE`): the pattern is attempted at the
text start and after every newline.  For the three speaker patterns this
yields exactly the finditer captures, because every match begins at a
line start and a consumed region never covers a line start at which a
pattern could match (such positions hold whitespace). -/
def scanLineStarts (attempt : List Char → Option (List Char)) : List Char → Bool → List (List Char)
  | [], _ => []
  | c :: cs, atStart =>
    let here :=
      if atStart then
        match attempt (c :: cs) with
        | some t => [t]
        | none => []
      else []
    here ++ scanLineStarts attempt cs (c = '\n')

/-- The captures of the three `SPEAKER_PATTERNS` of `document.py`, in
pattern order. -/
def inlineMatches (content : String) : List String :=
  ((scanLineStarts tryP1 content.data true) ++
   (scanLineStarts tryP2 content.data true) ++
   (scanLineStarts tryP3 content.data true)).map fun l => ⟨l⟩

/-- Python `set.add` on a set represented as its insertion-ordered list
of distinct elements. -/
def setAdd (s : List String) (x : String) : List String :=
  if x ∈ s then s else s ++ [x]

/-- Code-point comparison of strings, Python's `<=` on ASCII strings
(lexicographic on code points). -/
def lexLe : List Char → List Char → Bool
  | [], _ => true
  | _ :: _, [] => false
  | a :: xs, b :: ys =>
    if a.toNat < b.toNat then true
    else if b.toNat < a.toNat then false
    else lexLe xs ys

/-- Insert into a list sorted by `lexLe`. -/
def insertLe (x : String) : List String → List String
  | [] => [x]
  | y :: ys => if lexLe x.data y.data then x :: y :: ys else y :: insertLe x ys

/-- Python `sorted(...)` on strings: insertion sort by code-point
order. -/
def pySorted : List String → List String
  | [] => []
  | x :: xs => insertLe x (pySorted xs)

/-- `_extract_speakers` from `document.py`: accumulate the header tokens
and the inline pattern captures into a set, then return them sorted. -/
def _extract_speakers (content : String) : List String :=
  pySorted ((headerTokens content ++ inlineMatches content).foldl setAdd [])

end EncodingPrompter

namespace EncodingPrompter

/-! ### File loading (`DocumentLoader`) -/

/-- Errors raised by `DocumentLoader` in `document.py`. -/
inductive LoadError where
  /-- `FileNotFoundError("Path not found: ...")` from `load`. -/
  | pathNotFound (path : String)
  /-- `ValueError("Unsupported document format: <ext>. ...")` from
  `_load_file`; carries the offending extension. -/
  | unsupportedFormat (ext : String)
  /-- `ValueError("CSV file appears to be empty")` from `_load_csv`. -/
  | csvEmpty
  /-- `IndexError` from `reader.fieldnames[0]` on an empty header row. -/
  | indexError
  /-- `ValueError("No valid documents found in directory: ...")` from
  `_load_directory`. -/
  | noValidDocuments
  deriving Repr, DecidableEq

/-- `pathlib.Path.suffix` of a file name: the final dotted extension,
empty for names without a dot, with a leading dot, or with a trailing
dot. -/
def suffixOf (name : String) : String :=
  let r := name.data.reverse
  let ext := r.takeWhile (fun c => c ≠ '.')
  if ext.length + 1 ≤ r.length && !ext.isEmpty && !(r.drop (ext.length + 1)).isEmpty then
    ⟨'.' :: ext.reverse⟩
  else ""

/-- `pathlib.Path.stem`: the file name without its suffix. -/
def stemOf (name : String) : String :=
  ⟨name.data.take (name.data.length - (suffixOf name).data.length)⟩

/-- A path argument to `DocumentLoader.load`, abstracting the file
system: a missing path, a single file (final name component plus
content), or a directory of named files. -/
inductive PathInput where
  | missing (path : String)
  | file (name content : String)
  | dir (path : String) (entries : List (String × String))
  deriving Repr, DecidableEq

/-- `_load_txt` from `document.py`. -/
def _load_txt (name content : String) : Document :=
  { doc_id := stemOf name
    content := content
    speakers := _extract_speakers content
    source_path := name }

/-- The table-detection heuristic of `_load_csv`: one of the recognized
terms occurs in the lower-cased sample (first 2048 characters). -/
def recognizedTerm (sample : String) : Bool :=
  ["speaker", "text", "content", "utterance"].any fun t =>
    containsSub t.data (lowerStr sample).data

/-- Rows produced by `csv.reader` on quote-free content: lines split at
newlines (a trailing final newline yields no extra row), a blank line
giving an empty row and any other line split at commas.  Quoting and
carriage returns are not modeled; no input considered below contains a
quote character or `\r`. -/
def csvRows (content : String) : List (List String) :=
  let lines := content.split (fun c => c = '\n')
  let lines := match lines.reverse with
    | "" :: rest => rest.reverse
    | _ => lines
  lines.map fun line => if line = "" then [] else line.splitOn ","

/-- The `{fn.lower().strip(): fn for fn in reader.fieldnames}` dict:
keys in first-occurrence order, a repeated key keeping its position but
taking the last value. -/
def fieldnamesLower (fns : List String) : List (String × String) :=
  fns.foldl
    (fun d fn =>
      let k := pyStrip (lowerStr fn)
      if d.any (fun p => p.1 = k) then d.map (fun p => if p.1 = k then (k, fn) else p)
      else d ++ [(k, fn)])
    []

/-- The speaker/text column scan of `_load_csv` (lines 215-225): the
last matching key wins for each column. -/
def pickCols (d : List (String × String)) : Option String × Option String :=
  d.foldl
    (fun st kv =>
      if kv.1 ∈ ["speaker", "speaker_id", "participant", "id"] then (some kv.2, st.2)
      else if kv.1 ∈ ["text", "content", "utterance", "transcript", "message"] then
        (st.1, some kv.2)
      else st)
    (none, none)

/-- `row.get(col)` on a `csv.DictReader` row: the field at the column's
index in the header.  A row shorter than the header yields `none` for
the missing columns (Python's `None` rest value; the source would then
raise on `.strip()`, a case no theorem below exercises). -/
def rowGet (fieldnames row : List String) (col : String) : Option String :=
  match fieldnames.indexOf? col with
  | none => none
  | some i => row.get? i

/-- One rendered line of the `_load_csv` row loop, plus the speaker
value to add, if any. -/
def csvRowLine (fieldnames : List String) (speakerCol : Option String) (textCol : String)
    (row : List String) : Option String × String :=
  let textVal := pyStrip ((rowGet fieldnames row textCol).getD "")
  match speakerCol with
  | some sc =>
    match rowGet fieldnames row sc with
    | some v =>
      if v ≠ "" then (some (pyStrip v), pyStrip v ++ ": " ++ textVal)
      else (none, textVal)
    | none => (none, textVal)
  | none => (none, textVal)

/-- Join with newline, Python's `"\n".join(...)`. -/
def joinNl : List String → String
  | [] => ""
  | [x] => x
  | x :: xs => x ++ "\n" ++ joinNl xs

/-- `_load_csv` from `document.py`.  The final `list(speakers)` of the
source enumerates a Python set, whose element order CPython leaves
unspecified; it is modeled here by first-encounter order, and no theorem
below depends on the order of a non-empty such list. -/
def _load_csv (name content : String) : Except LoadError Document :=
  let sample : String := ⟨content.data.take 2048⟩
  if recognizedTerm sample then
    match csvRows content with
    | [] => .error .csvEmpty
    | fieldnames :: dataRows =>
      let cols := pickCols (fieldnamesLower fieldnames)
      match (match cols.2 with
             | some t => some t
             | none => fieldnames.head?) with
      | none => .error .indexError
      | some textCol =>
        let step := fun (acc : List String × List String) (row : List String) =>
          let (spk, line) := csvRowLine fieldnames cols.1 textCol row
          (match spk with
           | some s => setAdd acc.1 s
           | none => acc.1,
           acc.2 ++ [line])
        let res := (dataRows.filter (fun r => r ≠ [])).foldl step ([], [])
        let content' := joinNl res.2
        let speakers :=
          if res.1.isEmpty then (_extract_speakers content').foldl setAdd []
          else res.1
        .ok { doc_id := stemOf name
              content := content'
              speakers := speakers
              source_path := name }
  else
    let speakers := (_extract_speakers content).foldl setAdd []
    .ok { doc_id := stemOf name
          content := content
          speakers := speakers
          source_path := name }

/-- `_load_file` from `document.py`: dispatch on the lower-cased
extension. -/
def _load_file (name content : String) : Except LoadError Document :=
  let ext := lowerStr (suffixOf name)
  if ext = ".txt" then .ok (_load_txt name content)
  else if ext = ".csv" then _load_csv name content
  else .error (.unsupportedFormat ext)

/-- Insertion sort of directory entries by name (Python's
`sorted(directory.iterdir())`). -/
def insertEntry (x : String × String) : List (String × String) → List (String × String)
  | [] => [x]
  | y :: ys => if lexLe x.1.data y.1.data then x :: y :: ys else y :: insertEntry x ys

/-- Sort directory entries by file name. -/
def sortEntries : List (String × String) → List (String × String)
  | [] => []
  | x :: xs => insertEntry x (sortEntries xs)

/-- `_load_directory` from `document.py`: load every `.txt`/`.csv` file
in sorted name order, skipping files whose load fails; error only when
nothing loads. -/
def _load_directory (entries : List (String × String)) : Except LoadError (List Document) :=
  let supported := (sortEntries entries).filter fun e =>
    lowerStr (suffixOf e.1) = ".txt" || lowerStr (suffixOf e.1) = ".csv"
  let docs := supported.foldl
    (fun acc e =>
      match _load_file e.1 e.2 with
      | .ok d => acc ++ [d]
      | .error _ => acc)
    []
  if docs.isEmpty then .error .noValidDocuments else .ok docs

/-- `DocumentLoader.load` from `document.py`. -/
def load : PathInput → Except LoadError (List Document)
  | .missing p => .error (.pathNotFound p)
  | .file n c => (_load_file n c).map fun d => [d]
  | .dir _ es => _load_directory es

end EncodingPrompter

namespace EncodingPrompter

/-! ## Structural lemmas about `parse_response` -/

theorem foldl_append_flatten {α β : Type} (g : α → List β) :
    ∀ (l : List α) (acc : List β),
      l.foldl (fun a b => a ++ g b) acc = acc ++ (l.map g).flatten := by
  intro l
  induction l with
  | nil => intro acc; simp
  | cons x xs ih => intro acc; simp [List.foldl_cons, ih]

theorem parse_response_eq (t d : String) :
    parse_response t d = ((splitBlocks t).map (blockContribution d)).flatten := by
  unfold parse_response
  have hstep :
      (fun (instances : List EncodingInstance) block =>
        if pyStrip block = "" then instances
        else
          match _parse_block block d with
          | none => instances
          | some instance_ =>
            if instance_.construct ≠ "" then
              instances ++
                [if d ≠ "" then { instance_ with doc_id := d } else instance_]
            else instances) =
      fun (a : List EncodingInstance) b => a ++ blockContribution d b := by
    funext a b
    unfold blockContribution
    by_cases h : pyStrip b = ""
    · simp [h]
    · simp only [h, if_false]
      cases hp : _parse_block b d with
      | none => simp
      | some j =>
        by_cases hc : j.construct = "" <;> simp [hc]
  rw [hstep, foldl_append_flatten]
  simp

theorem mem_parse_response {t d : String} {i : EncodingInstance} :
    i ∈ parse_response t d ↔ ∃ b ∈ splitBlocks t, i ∈ blockContribution d b := by
  rw [parse_response_eq, List.mem_flatten]
  constructor
  · rintro ⟨l, hl, hi⟩
    rcases List.mem_map.mp hl with ⟨b, hb, rfl⟩
    exact ⟨b, hb, hi⟩
  · rintro ⟨b, hb, hi⟩
    exact ⟨blockContribution d b, List.mem_map.mpr ⟨b, hb, rfl⟩, hi⟩

theorem mem_blockContribution {d b : String} {i : EncodingInstance}
    (h : i ∈ blockContribution d b) :
    ∃ j, _parse_block b d = some j ∧ j.construct ≠ "" ∧
      i = (if d ≠ "" then { j with doc_id := d } else j) := by
  unfold blockContribution at h
  by_cases hs : pyStrip b = ""
  · simp [hs] at h
  · simp only [hs, if_false] at h
    cases hp : _parse_block b d with
    | none => rw [hp] at h; simp at h
    | some j =>
      rw [hp] at h
      by_cases hc : j.construct = ""
      · simp [hc] at h
      · simp only [hc, ne_eq, not_false_eq_true, if_true, List.mem_singleton] at h
        exact ⟨j, rfl, hc, h⟩

theorem parse_block_fields {b d : String} {j : EncodingInstance}
    (h : _parse_block b d = some j) :
    constructValue b = some j.construct ∧
    j.doc_id = (docIdValue b).getD d ∧
    j.speaker_id = (speakerIdValue b).getD "" ∧
    j.quote = (quoteValue b).getD "" ∧
    j.confidence = (match confidenceValue b with
                    | none => -1
                    | some cap => confidenceOf cap) := by
  unfold _parse_block at h
  cases hc : constructValue b with
  | none => rw [hc] at h; exact absurd h (by simp)
  | some con =>
    rw [hc] at h
    simp only [Option.some.injEq] at h
    subst h
    simp [hc]

end EncodingPrompter

namespace EncodingPrompter

/-! ## Claims C1-C3 -/

/-- C1: for every response text and every non-empty `known_doc_id`,
every `EncodingInstance` returned by `parse_response` has `doc_id` equal
to `known_doc_id`, regardless of any `DOC_ID` value present in the
block; if `known_doc_id` is the empty string, the `doc_id` parsed from
the block (or the empty string when absent) is kept. -/
theorem C1_doc_id_override (text kid : String) :
    (kid ≠ "" → ∀ i ∈ parse_response text kid, i.doc_id = kid) ∧
    (∀ i ∈ parse_response text "",
      ∃ b ∈ splitBlocks text, i.doc_id = (docIdValue b).getD "") := by
  constructor
  · intro hk i hi
    obtain ⟨b, _, hbc⟩ := mem_parse_response.mp hi
    obtain ⟨j, _, _, rfl⟩ := mem_blockContribution hbc
    simp [hk]
  · intro i hi
    obtain ⟨b, hb, hbc⟩ := mem_parse_response.mp hi
    obtain ⟨j, hp, _, rfl⟩ := mem_blockContribution hbc
    refine ⟨b, hb, ?_⟩
    simp [(parse_block_fields hp).2.1]

/-- Witness for C1 at a concrete input: the caller's id overrides the
block's `DOC_ID`. -/
theorem C1_witness :
    (⟨"k", "", "X", "", -1⟩ : EncodingInstance).doc_id = "k" :=
  (C1_doc_id_override "DOC_ID: other\nCONSTRUCT: X" "k").1 (by decide)
    ⟨"k", "", "X", "", -1⟩ (by decide)

/-- C2: every `EncodingInstance` returned by `parse_response` has a
non-empty construct; a block in which no construct field is matched
yields no instance at all. -/
theorem C2_construct_nonempty (text d : String) :
    (∀ i ∈ parse_response text d, i.construct ≠ "") ∧
    (∀ b : String, constructValue b = none → _parse_block b d = none) := by
  constructor
  · intro i hi
    obtain ⟨b, _, hbc⟩ := mem_parse_response.mp hi
    obtain ⟨j, _, hc, rfl⟩ := mem_blockContribution hbc
    by_cases hd : d = "" <;> simp [hd, hc]
  · intro b h
    unfold _parse_block
    rw [h]

/-- Witness for C2 at concrete inputs: a parsed instance with non-empty
construct, and a construct-free block yielding no instance. -/
theorem C2_witness :
    (⟨"", "", "X", "", -1⟩ : EncodingInstance).construct ≠ "" ∧
    _parse_block "DOC_ID: d\nQUOTE: q" "" = none :=
  ⟨(C2_construct_nonempty "CONSTRUCT: X" "").1 ⟨"", "", "X", "", -1⟩ (by decide),
   (C2_construct_nonempty "" "").2 "DOC_ID: d\nQUOTE: q" (by rfl)⟩

/-- C3: parsing is total (the embedding returns a value on every input,
matching the source's never-raises behaviour), and for every emitted
instance a block with no `speaker_id` field yields an empty
`speaker_id`, a block with no `quote` field yields an empty `quote`,
and a missing confidence field yields the sentinel `-1`. -/
theorem C3_missing_fields_default (b d : String) (i : EncodingInstance)
    (h : _parse_block b d = some i) :
    (speakerIdValue b = none → i.speaker_id = "") ∧
    (quoteValue b = none → i.quote = "") ∧
    (confidenceValue b = none → i.confidence = -1) := by
  obtain ⟨-, -, hs, hq, hc⟩ := parse_block_fields h
  refine ⟨fun hn => ?_, fun hn => ?_, fun hn => ?_⟩
  · rw [hs, hn]; rfl
  · rw [hq, hn]; rfl
  · rw [hc, hn]

/-- Witness for C3 at a concrete block containing only a construct
field. -/
theorem C3_witness :
    (⟨"", "", "X", "", -1⟩ : EncodingInstance).speaker_id = "" ∧
    (⟨"", "", "X", "", -1⟩ : EncodingInstance).quote = "" ∧
    (⟨"", "", "X", "", -1⟩ : EncodingInstance).confidence = -1 :=
  ⟨(C3_missing_fields_default "CONSTRUCT: X" "" ⟨"", "", "X", "", -1⟩ (by rfl)).1 (by rfl),
   (C3_missing_fields_default "CONSTRUCT: X" "" ⟨"", "", "X", "", -1⟩ (by rfl)).2.1 (by rfl),
   (C3_missing_fields_default "CONSTRUCT: X" "" ⟨"", "", "X", "", -1⟩ (by rfl)).2.2 (by rfl)⟩

end EncodingPrompter

namespace EncodingPrompter

/-! ## Claim C4 — block splitting -/

/-- A split point of line 54 of `parser.py` exists: some newline is
immediately followed by a `DOC_ID:` / `DOC ID:` marker. -/
def hasMarkerBoundary : List Char → Bool
  | [] => false
  | c :: cs => (c = '\n' && isMarkerAt cs) || hasMarkerBoundary cs

theorem splitChars_ne_nil : ∀ cs, splitChars cs ≠ [] := by
  intro cs
  induction cs with
  | nil => simp [splitChars]
  | cons c cs ih =>
    unfold splitChars
    by_cases h : (c = '\n' && isMarkerAt cs) = true
    · simp [h]
    · simp only [h, if_false]
      cases hs : splitChars cs <;> simp

theorem splitChars_no_boundary : ∀ cs, hasMarkerBoundary cs = false → splitChars cs = [cs] := by
  intro cs
  induction cs with
  | nil => intro _; rfl
  | cons c cs ih =>
    intro h
    unfold hasMarkerBoundary at h
    simp only [Bool.or_eq_false_iff] at h
    unfold splitChars
    rw [h.1, ih h.2]
    simp

/-- Concatenating the split blocks with newlines restores the text. -/
def charsJoinNl : List (List Char) → List Char
  | [] => []
  | [b] => b
  | b :: bs => b ++ '\n' :: charsJoinNl bs

theorem splitChars_join : ∀ cs, charsJoinNl (splitChars cs) = cs := by
  intro cs
  induction cs with
  | nil => rfl
  | cons c cs ih =>
    unfold splitChars
    by_cases h : (c = '\n' && isMarkerAt cs) = true
    · simp only [h, if_true]
      obtain ⟨b, bs, hbs⟩ : ∃ b bs, splitChars cs = b :: bs := by
        cases hs : splitChars cs with
        | nil => exact absurd hs (splitChars_ne_nil cs)
        | cons b bs => exact ⟨b, bs, rfl⟩
      rw [hbs]
      rw [hbs] at ih
      have hc : c = '\n' := by
        rcases Bool.and_eq_true_iff.mp h with ⟨h1, -⟩
        exact decide_eq_true_eq.mp h1
      subst hc
      show '\n' :: charsJoinNl (b :: bs) = '\n' :: cs
      rw [ih]
    · simp only [h, if_false]
      obtain ⟨b, bs, hbs⟩ : ∃ b bs, splitChars cs = b :: bs := by
        cases hs : splitChars cs with
        | nil => exact absurd hs (splitChars_ne_nil cs)
        | cons b bs => exact ⟨b, bs, rfl⟩
      rw [hbs]
      rw [hbs] at ih
      cases bs with
      | nil => show c :: b = c :: cs; rw [show charsJoinNl [b] = b from rfl] at ih; rw [ih]
      | cons x xs =>
        show (c :: b) ++ '\n' :: charsJoinNl (x :: xs) = c :: cs
        rw [List.cons_append]
        rw [show charsJoinNl (b :: x :: xs) = b ++ '\n' :: charsJoinNl (x :: xs) from rfl] at ih
        rw [ih]

theorem startsWithCI_splitChars_head :
    ∀ (pat cs : List Char), (∀ p ∈ pat, p ≠ '\n') → startsWithCI pat cs = true →
      startsWithCI pat ((splitChars cs).headD []) = true := by
  intro pat
  induction pat with
  | nil => intro cs _ _; simp [startsWithCI, dropCI]
  | cons p ps ih =>
    intro cs hnl h
    cases cs with
    | nil => simp [startsWithCI, dropCI] at h
    | cons c cs' =>
      have hpc : p = lowerChar c ∧ startsWithCI ps cs' = true := by
        unfold startsWithCI dropCI at h
        by_cases hc : p = lowerChar c
        · exact ⟨hc, by simpa [hc, startsWithCI] using h⟩
        · simp [hc] at h
      have hcnl : c ≠ '\n' := by
        intro hcn
        exact hnl p (by simp) (by rw [hpc.1, hcn]; rfl)
      unfold splitChars
      have hcond : (c = '\n' && isMarkerAt cs') = false := by
        simp [hcnl]
      simp only [hcond, if_false]
      obtain ⟨b, bs, hbs⟩ : ∃ b bs, splitChars cs' = b :: bs := by
        cases hs : splitChars cs' with
        | nil => exact absurd hs (splitChars_ne_nil cs')
        | cons b bs => exact ⟨b, bs, rfl⟩
      rw [hbs]
      have ihb := ih cs' (fun q hq => hnl q (by simp [hq])) hpc.2
      rw [hbs] at ihb
      simp only [List.headD_cons] at ihb ⊢
      have hp : p = lowerChar c := hpc.1
      unfold startsWithCI at ihb ⊢
      show (dropCI (p :: ps) (c :: b)).isSome = true
      unfold dropCI
      rw [if_pos hp]
      exact ihb

theorem isMarkerAt_splitChars_head {cs : List Char} (h : isMarkerAt cs = true) :
    isMarkerAt ((splitChars cs).headD []) = true := by
  unfold isMarkerAt at h ⊢
  rcases Bool.or_eq_true_iff.mp h with h1 | h1
  · rw [startsWithCI_splitChars_head _ cs (by decide) h1]
    simp
  · rw [startsWithCI_splitChars_head _ cs (by decide) h1]
    simp

theorem splitChars_drop_one_marker :
    ∀ cs, ∀ b ∈ (splitChars cs).drop 1, isMarkerAt b = true := by
  intro cs
  induction cs with
  | nil => intro b hb; simp [splitChars] at hb
  | cons c cs ih =>
    intro b hb
    unfold splitChars at hb
    by_cases h : (c = '\n' && isMarkerAt cs) = true
    · simp only [h, if_true, List.drop_one, List.tail_cons] at hb
      obtain ⟨hd, tl, hbs⟩ : ∃ hd tl, splitChars cs = hd :: tl := by
        cases hs : splitChars cs with
        | nil => exact absurd hs (splitChars_ne_nil cs)
        | cons x xs => exact ⟨x, xs, rfl⟩
      rw [hbs] at hb
      rcases List.mem_cons.mp hb with rfl | hbtl
      · have := isMarkerAt_splitChars_head (Bool.and_eq_true_iff.mp h).2
        rwa [hbs] at this
      · exact ih b (by rw [hbs]; simpa using hbtl)
    · simp only [h, if_false] at hb
      obtain ⟨hd, tl, hbs⟩ : ∃ hd tl, splitChars cs = hd :: tl := by
        cases hs : splitChars cs with
        | nil => exact absurd hs (splitChars_ne_nil cs)
        | cons x xs => exact ⟨x, xs, rfl⟩
      rw [hbs] at hb
      simp only [List.drop_one, List.tail_cons] at hb
      exact ih b (by rw [hbs]; simpa using hb)

theorem joinNl_map_mk : ∀ l : List (List Char),
    joinNl (l.map fun c => (⟨c⟩ : String)) = ⟨charsJoinNl l⟩ := by
  intro l
  induction l with
  | nil => rfl
  | cons b bs ih =>
    cases bs with
    | nil => rfl
    | cons x xs =>
      show (⟨b⟩ : String) ++ "\n" ++ joinNl ((x :: xs).map fun c => (⟨c⟩ : String)) =
        ⟨b ++ '\n' :: charsJoinNl (x :: xs)⟩
      rw [ih]
      apply String.ext
      simp [String.data_append]



/-! ## Completeness of the C4 split: no block retains a boundary -/

theorem dropCI_cons (p c : Char) (ps cs : List Char) :
    dropCI (p :: ps) (c :: cs) = if p = lowerChar c then dropCI ps cs else none := rfl

theorem dropCI_append {pat : List Char} :
    ∀ {t rest l : List Char}, dropCI pat t = some rest → dropCI pat (t ++ l) = some (rest ++ l) := by
  induction pat with
  | nil =>
    intro t rest l h
    unfold dropCI at h
    injection h with h
    rw [h]
    rfl
  | cons p ps ih =>
    intro t rest l h
    cases t with
    | nil => simp [dropCI] at h
    | cons c cs =>
      rw [List.cons_append, dropCI_cons]
      rw [dropCI_cons] at h
      by_cases hc : p = lowerChar c
      · rw [if_pos hc] at h ⊢
        exact ih h
      · rw [if_neg hc] at h; exact absurd h (by simp)

theorem splitChars_head_leading : ∀ cs : List Char, ∃ t, cs = ((splitChars cs).headD []) ++ t := by
  intro cs
  induction cs with
  | nil => exact ⟨[], rfl⟩
  | cons c cs ih =>
    obtain ⟨b, bs, hbs⟩ : ∃ b bs, splitChars cs = b :: bs := by
      cases hs : splitChars cs with
      | nil => exact absurd hs (splitChars_ne_nil cs)
      | cons b bs => exact ⟨b, bs, rfl⟩
    rw [hbs] at ih
    simp only [List.headD_cons] at ih
    obtain ⟨t, ht⟩ := ih
    unfold splitChars
    by_cases h : (c = '\n' && isMarkerAt cs) = true
    · rw [if_pos h]
      exact ⟨c :: cs, rfl⟩
    · rw [if_neg h, hbs]
      refine ⟨t, ?_⟩
      show c :: cs = (c :: b) ++ t
      rw [List.cons_append, ← ht]

theorem startsWithCI_extend {pat b t : List Char} (h : startsWithCI pat b = true) :
    startsWithCI pat (b ++ t) = true := by
  unfold startsWithCI at h ⊢
  cases hm : dropCI pat b with
  | none => rw [hm] at h; exact absurd h (by simp)
  | some r => rw [dropCI_append hm]; rfl

theorem isMarkerAt_extend {b t : List Char} (h : isMarkerAt b = true) :
    isMarkerAt (b ++ t) = true := by
  unfold isMarkerAt at h ⊢
  rcases Bool.or_eq_true_iff.mp h with h1 | h1
  · rw [startsWithCI_extend h1]; rfl
  · rw [startsWithCI_extend h1]; simp

theorem splitChars_no_internal : ∀ cs : List Char, ∀ b ∈ splitChars cs,
    hasMarkerBoundary b = false := by
  intro cs
  induction cs with
  | nil =>
    intro b hb
    rw [show splitChars [] = [[]] from rfl, List.mem_singleton] at hb
    subst hb
    rfl
  | cons c cs ih =>
    intro b hb
    unfold splitChars at hb
    by_cases h : (c = '\n' && isMarkerAt cs) = true
    · rw [if_pos h] at hb
      rcases List.mem_cons.mp hb with rfl | hb2
      · rfl
      · exact ih b hb2
    · rw [if_neg h] at hb
      obtain ⟨hd, tl, hbs⟩ : ∃ hd tl, splitChars cs = hd :: tl := by
        cases hs : splitChars cs with
        | nil => exact absurd hs (splitChars_ne_nil cs)
        | cons x xs => exact ⟨x, xs, rfl⟩
      rw [hbs] at hb
      rcases List.mem_cons.mp hb with rfl | hb2
      · show ((c = '\n' && isMarkerAt hd) || hasMarkerBoundary hd) = false
        have hhd : hasMarkerBoundary hd = false := ih hd (by rw [hbs]; simp)
        rw [hhd, Bool.or_false]
        by_cases hc : c = '\n'
        · subst hc
          by_cases hmk : isMarkerAt hd = true
          · exfalso
            obtain ⟨t, ht⟩ := splitChars_head_leading cs
            rw [hbs] at ht
            simp only [List.headD_cons] at ht
            apply h
            rw [ht]
            simp [isMarkerAt_extend hmk]
          · simp [hmk]
        · simp [hc]
      · exact ih b (by rw [hbs]; simp [hb2])

/-- C4: `parse_response` splits the raw text into blocks exactly at
every line boundary immediately preceding a case-insensitive `DOC_ID:`
or `DOC ID:` marker — the marker line staying with the following block
(every block after the first starts with a marker, and rejoining the
blocks with newlines restores the text) — a text containing no such
boundary is one single block, and emitted instances appear in block
order with no resorting. -/
theorem C4_block_split (t d : String) :
    (hasMarkerBoundary t.data = false → splitBlocks t = [t]) ∧
    joinNl (splitBlocks t) = t ∧
    (∀ b ∈ (splitBlocks t).drop 1, isMarkerAt b.data = true) ∧
    (∀ b ∈ splitBlocks t, hasMarkerBoundary b.data = false) ∧
    parse_response t d = ((splitBlocks t).map (blockContribution d)).flatten := by
  refine ⟨fun h => ?_, ?_, fun b hb => ?_, fun b hb => ?_, parse_response_eq t d⟩
  · unfold splitBlocks
    rw [splitChars_no_boundary t.data h]
    rfl
  · unfold splitBlocks
    rw [joinNl_map_mk, splitChars_join]
  · unfold splitBlocks at hb
    rw [← List.map_drop] at hb
    rcases List.mem_map.mp hb with ⟨bl, hbl, rfl⟩
    exact splitChars_drop_one_marker t.data bl hbl
  · unfold splitBlocks at hb
    rcases List.mem_map.mp hb with ⟨bl, hbl, rfl⟩
    exact splitChars_no_internal t.data bl hbl

/-- Witness for C4 at concrete inputs: a marker-free text is a single
block, and in a two-block text the second block starts with the
marker. -/
theorem C4_witness :
    splitBlocks "abc\nxyz" = ["abc\nxyz"] ∧
    isMarkerAt ("DOC_ID: x".data) = true ∧
    hasMarkerBoundary ("DOC_ID: x".data) = false :=
  ⟨(C4_block_split "abc\nxyz" "").1 (by decide),
   (C4_block_split "a\nDOC_ID: x" "").2.2.1 "DOC_ID: x" (by decide),
   (C4_block_split "a\nDOC_ID: x" "").2.2.2.1 "DOC_ID: x" (by decide)⟩

end EncodingPrompter

namespace EncodingPrompter

/-! ## Claim C6 — field matching -/

theorem searchField_some {tryAt : List Char → Option (List Char)} :
    ∀ {cs v}, searchField tryAt cs = some v → ∃ cs', tryAt cs' = some v := by
  intro cs
  induction cs with
  | nil => intro v h; exact ⟨[], h⟩
  | cons c cs ih =>
    intro v h
    unfold searchField at h
    cases ht : tryAt (c :: cs) with
    | some w => rw [ht] at h; exact ⟨c :: cs, ht.trans h⟩
    | none => rw [ht] at h; exact ih h

theorem dropWhile_head_false {p : Char → Bool} :
    ∀ {l : List Char} {c cs}, l.dropWhile p = c :: cs → p c = false := by
  intro l
  induction l with
  | nil => intro c cs h; simp at h
  | cons x xs ih =>
    intro c cs h
    rw [List.dropWhile_cons] at h
    by_cases hp : p x = true
    · rw [if_pos hp] at h; exact ih h
    · rw [if_neg hp] at h
      injection h with h1 _
      subst h1
      simpa using hp

theorem mem_stripChars {l : List Char} {c : Char} (h : c ∈ stripChars l) : c ∈ l := by
  unfold stripChars at h
  rw [List.mem_reverse] at h
  have h2 := (List.dropWhile_sublist pyWs).subset h
  rw [List.mem_reverse] at h2
  exact (List.dropWhile_sublist pyWs).subset h2

theorem lazyCaptureGo_no_nl {look : List Char → Bool}
    (hlook : ∀ xs, look ('\n' :: xs) = true) :
    ∀ l, '\n' ∉ lazyCaptureGo look l := by
  intro l
  induction l with
  | nil => simp [lazyCaptureGo]
  | cons c cs ih =>
    unfold lazyCaptureGo
    by_cases h : look (c :: cs) = true
    · simp [h]
    · simp only [h, if_false]
      intro hm
      rcases List.mem_cons.mp hm with heq | hm2
      · rw [← heq] at h; exact h (hlook cs)
      · exact ih hm2

theorem captureAfterColon_no_nl {look : List Char → Bool}
    (hlook : ∀ xs, look ('\n' :: xs) = true) {rest l : List Char}
    (h : captureAfterColon look rest = some l) : '\n' ∉ stripChars l := by
  unfold captureAfterColon at h
  cases hd : rest.dropWhile pyWs with
  | cons c cs =>
    rw [hd] at h
    injection h with h
    subst h
    have hc : pyWs c = false := dropWhile_head_false hd
    intro hm
    have hm' := mem_stripChars hm
    rcases List.mem_cons.mp hm' with heq | hm2
    · rw [← heq] at hc; exact absurd hc (by decide)
    · exact lazyCaptureGo_no_nl hlook cs hm2
  | nil =>
    rw [hd] at h
    cases ht : (rest.takeWhile pyWs).reverse with
    | nil => rw [ht] at h; simp at h
    | cons c cs =>
      rw [ht] at h
      injection h with h
      subst h
      have hc : pyWs c = true := by
        have hmem : c ∈ rest.takeWhile pyWs := by
          rw [← List.mem_reverse, ht]; simp
        exact List.mem_takeWhile_imp hmem
      have hstrip : stripChars [c] = [] := by
        unfold stripChars
        rw [show List.dropWhile pyWs [c] = [] from by simp [List.dropWhile_cons, hc]]
        rfl
      rw [hstrip]
      simp

theorem searchCapture_no_nl {labelM : List Char → Option (List Char)}
    {look : List Char → Bool} (hlook : ∀ xs, look ('\n' :: xs) = true) {cs l : List Char}
    (h : searchField (fun x => (labelM x).bind (captureAfterColon look)) cs = some l) :
    '\n' ∉ stripChars l := by
  obtain ⟨cs', h'⟩ := searchField_some h
  obtain ⟨rest, -, hcap⟩ := Option.bind_eq_some.mp h'
  exact captureAfterColon_no_nl hlook hcap

/-- C6 counterexample: the claim says captures are terminated by the
next field's label, not by line breaks; but in a block whose construct
value is followed by a second line and no further label, the capture
stops at the line break (yielding `line1`) instead of extending to the
end of the block (`line1\nline2`). -/
theorem C6_counterexample :
    _parse_block "CONSTRUCT: line1\nline2" "" = some ⟨"", "", "line1", "", -1⟩ ∧
    "line1" ≠ "line1\nline2" :=
  ⟨by decide, by decide⟩

/-- C6 (amended): each of the five fields is matched independently and
case-insensitively, anchored on its label (allowing an underscore or a
single whitespace character inside two-word labels); `doc_id`,
`speaker_id` and `construct` captures are terminated by the first line
break, next recognized label, or end of block — so their stripped
values never contain a newline — while only `quote`, terminated by a
line break immediately followed by `CONFIDENCE` or `DOC` (or end of
block), may span multiple lines. -/
theorem C6_label_matching (b v : String) :
    ((docIdValue b = some v ∨ speakerIdValue b = some v ∨ constructValue b = some v) →
      '\n' ∉ v.data) ∧
    quoteValue "CONSTRUCT: X\nQUOTE: a\nb" = some "a\nb" ∧
    docIdValue "DOC_ID: abc SPEAKER_ID: s" = some "abc" ∧
    speakerIdValue "speaker id: s\nCONSTRUCT: c" = some "s" := by
  refine ⟨fun h => ?_, by decide, by decide, by decide⟩
  rcases h with h | h | h
  · unfold docIdValue at h
    obtain ⟨l, hl, hv⟩ := Option.map_eq_some'.mp h
    rw [← hv]
    exact searchCapture_no_nl (by intro xs; rfl) hl
  · unfold speakerIdValue at h
    obtain ⟨l, hl, hv⟩ := Option.map_eq_some'.mp h
    rw [← hv]
    exact searchCapture_no_nl (by intro xs; rfl) hl
  · unfold constructValue at h
    obtain ⟨l, hl, hv⟩ := Option.map_eq_some'.mp h
    rw [← hv]
    exact searchCapture_no_nl (by intro xs; rfl) hl

/-- Witness for C6 at a concrete block. -/
theorem C6_witness : '\n' ∉ ("abc" : String).data :=
  (C6_label_matching "DOC_ID: abc SPEAKER_ID: s" "abc").1 (Or.inl (by decide))

end EncodingPrompter

namespace EncodingPrompter

/-! ## Claims C5 and C10 — confidence parsing -/

theorem dropCI_suffix : ∀ {pat cs rest : List Char}, dropCI pat cs = some rest →
    rest.IsSuffix cs := by
  intro pat
  induction pat with
  | nil =>
    intro cs rest h
    unfold dropCI at h
    injection h with h
    subst h
    exact List.suffix_rfl
  | cons p ps ih =>
    intro cs rest h
    cases cs with
    | nil => simp [dropCI] at h
    | cons c cs' =>
      unfold dropCI at h
      by_cases hc : p = lowerChar c
      · rw [if_pos hc] at h
        exact (ih h).trans (List.suffix_cons c cs')
      · rw [if_neg hc] at h; exact absurd h (by simp)

theorem digit_not_ws {c : Char} (h : c.isDigit = true) : pyWs c = false := by
  by_contra hb
  rw [Bool.not_eq_false] at hb
  have hc : c = ' ' ∨ c = '\t' ∨ c = '\n' ∨ c = '\r' ∨ c = '\x0b' ∨ c = '\x0c' := by
    simpa [pyWs, or_assoc] using hb
  rcases hc with rfl | rfl | rfl | rfl | rfl | rfl <;> exact absurd h (by decide)

theorem stripChars_all {l : List Char} (h : ∀ c ∈ l, pyWs c = false) : stripChars l = l := by
  unfold stripChars
  have h1 : l.dropWhile pyWs = l := by
    cases l with
    | nil => rfl
    | cons x xs => rw [List.dropWhile_cons, if_neg (by simp [h x (by simp)])]
  rw [h1]
  have h2 : l.reverse.dropWhile pyWs = l.reverse := by
    cases hr : l.reverse with
    | nil => rfl
    | cons x xs =>
      have hx : x ∈ l := by rw [← List.mem_reverse, hr]; simp
      rw [List.dropWhile_cons, if_neg (by simp [h x hx])]
  rw [h2, List.reverse_reverse]

theorem takeWhile_append_all {p : Char → Bool} :
    ∀ {ds r : List Char}, (∀ c ∈ ds, p c = true) → (∀ c ∈ r.head?, p c = false) →
      (ds ++ r).takeWhile p = ds := by
  intro ds
  induction ds with
  | nil =>
    intro r _ hr
    cases r with
    | nil => rfl
    | cons x xs =>
      simp only [List.nil_append, List.takeWhile_cons]
      rw [hr x (by simp)]
      simp
  | cons d ds ih =>
    intro r hds hr
    simp only [List.cons_append, List.takeWhile_cons]
    rw [hds d (by simp)]
    simp only [if_true]
    rw [ih (fun c hc => hds c (by simp [hc])) hr]

theorem searchField_of_tryAt {tryAt : List Char → Option (List Char)} {cs v : List Char}
    (h : tryAt cs = some v) : searchField tryAt cs = some v := by
  cases cs with
  | nil => simpa [searchField] using h
  | cons c cs' => unfold searchField; rw [h]

theorem pyInt?_digits {ds : List Char} (hne : ds ≠ []) (hd : ∀ c ∈ ds, c.isDigit = true) :
    pyInt? ⟨ds⟩ = some ((natOfDigits ds : Int)) := by
  unfold pyInt?
  have hstrip : stripChars ds = ds := stripChars_all fun c hc => digit_not_ws (hd c hc)
  cases ds with
  | nil => exact absurd rfl hne
  | cons c cs =>
    simp only [hstrip]
    have hcd : c.isDigit = true := hd c (by simp)
    have hminus : ¬ c = '-' := by rintro rfl; exact absurd hcd (by decide)
    have hplus : ¬ c = '+' := by rintro rfl; exact absurd hcd (by decide)
    rw [if_neg hminus, if_neg hplus, if_pos]
    simp only [List.all_eq_true]
    intro x hx
    exact hd x hx

theorem tryConfidenceAt_no_digit {cs : List Char} (h : ∀ c ∈ cs, c.isDigit = false) :
    tryConfidenceAt cs = none := by
  unfold tryConfidenceAt matchLabel1
  cases hm : dropCI "confidence:".data cs with
  | none => rfl
  | some rest =>
    have hsub : rest.IsSuffix cs := dropCI_suffix hm
    show (match (rest.dropWhile pyWs).takeWhile Char.isDigit with
          | [] => none
          | d :: ds => some (d :: ds)) = none
    cases htw : (rest.dropWhile pyWs).takeWhile Char.isDigit with
    | nil => rfl
    | cons d ds =>
      exfalso
      have hdmem : d ∈ (rest.dropWhile pyWs).takeWhile Char.isDigit := by rw [htw]; simp
      have hdig : d.isDigit = true := List.mem_takeWhile_imp hdmem
      have hmem : d ∈ cs := by
        have h1 := (List.takeWhile_sublist Char.isDigit).subset hdmem
        have h2 := (List.dropWhile_sublist pyWs).subset h1
        exact hsub.sublist.subset h2
      rw [h d hmem] at hdig
      exact Bool.false_ne_true hdig

theorem searchConfidence_no_digit :
    ∀ {cs : List Char}, (∀ c ∈ cs, c.isDigit = false) →
      searchField tryConfidenceAt cs = none := by
  intro cs
  induction cs with
  | nil => intro h; exact tryConfidenceAt_no_digit h
  | cons c cs' ih =>
    intro h
    unfold searchField
    rw [tryConfidenceAt_no_digit h]
    exact ih fun x hx => h x (by simp [hx])

theorem confidenceValue_digits {b cap : String} (h : confidenceValue b = some cap) :
    cap.data ≠ [] ∧ ∀ c ∈ cap.data, c.isDigit = true := by
  unfold confidenceValue at h
  obtain ⟨l, hl, hv⟩ := Option.map_eq_some'.mp h
  obtain ⟨cs', ht⟩ := searchField_some hl
  unfold tryConfidenceAt at ht
  cases hm : matchLabel1 "confidence:".data cs' with
  | none => rw [hm] at ht; exact absurd ht (by simp)
  | some rest =>
    rw [hm] at ht
    have ht2 : (match (rest.dropWhile pyWs).takeWhile Char.isDigit with
          | [] => none
          | d :: ds => some (d :: ds)) = some l := ht
    clear ht
    cases htw : (rest.dropWhile pyWs).takeWhile Char.isDigit with
    | nil => rw [htw] at ht2; exact absurd ht2 (by simp)
    | cons d ds =>
      rw [htw] at ht2
      injection ht2 with ht
      have hall : ∀ c ∈ l, c.isDigit = true := by
        intro c hc
        apply List.mem_takeWhile_imp (p := Char.isDigit) (l := rest.dropWhile pyWs)
        rw [htw, ht]
        exact hc
      have hcap : cap.data = l := by
        rw [← hv]
        show stripChars l = l
        exact stripChars_all fun c hc => digit_not_ws (hall c hc)
      constructor
      · rw [hcap, ← ht]; simp
      · rw [hcap]; exact hall

theorem confidenceOf_digits {cap : String} (hne : cap.data ≠ [])
    (hd : ∀ c ∈ cap.data, c.isDigit = true) :
    confidenceOf cap = (natOfDigits cap.data : Int) := by
  unfold confidenceOf
  have : pyInt? cap = some ((natOfDigits cap.data : Int)) := by
    have := pyInt?_digits hne hd
    simpa using this
  rw [this]

theorem searchField_none_of_drop {tryAt : List Char → Option (List Char)} :
    ∀ cs : List Char, (∀ n : Nat, n ≤ cs.length → tryAt (cs.drop n) = none) →
      searchField tryAt cs = none := by
  intro cs
  induction cs with
  | nil => intro h; exact h 0 (by simp)
  | cons c cs ih =>
    intro h
    have h0 : tryAt (c :: cs) = none := h 0 (by simp)
    unfold searchField
    rw [h0]
    exact ih fun n hn => h (n + 1) (by simpa using hn)

theorem searchField_cons_none {tryAt : List Char → Option (List Char)} {c : Char}
    {cs : List Char} (h : tryAt (c :: cs) = none) :
    searchField tryAt (c :: cs) = searchField tryAt cs := by
  show (match tryAt (c :: cs) with
        | some v => some v
        | none => searchField tryAt cs) = searchField tryAt cs
  rw [h]

theorem searchField_append_of_drop {tryAt : List Char → Option (List Char)} :
    ∀ (pre suf : List Char),
      (∀ n : Nat, n < pre.length → tryAt ((pre ++ suf).drop n) = none) →
      searchField tryAt (pre ++ suf) = searchField tryAt suf := by
  intro pre
  induction pre with
  | nil => intro suf _; rfl
  | cons p pre' ih =>
    intro suf h
    have h0 : tryAt (p :: (pre' ++ suf)) = none := h 0 (by simp)
    rw [List.cons_append, searchField_cons_none h0]
    exact ih suf fun n hn => h (n + 1) (by simpa using hn)

theorem dropWhile_append_sat {p : Char → Bool} :
    ∀ {ws l : List Char}, (∀ c ∈ ws, p c = true) →
      (ws ++ l).dropWhile p = l.dropWhile p := by
  intro ws
  induction ws with
  | nil => intro l _; rfl
  | cons w ws' ih =>
    intro l h
    rw [List.cons_append, List.dropWhile_cons, if_pos (h w (by simp))]
    exact ih fun c hc => h c (by simp [hc])

/-- C5: over all blocks: whenever the confidence pattern matches nowhere
(in particular whenever the text following every `CONFIDENCE` label is
non-numeric) the emitted confidence is the sentinel `-1`; whenever it
matches, the capture is a non-empty run of decimal digits and the
emitted confidence is its integer value.  Concretely, in any block
`pre ++ label ++ ws ++ digits ++ rest` — any preceding fields, any case
variant of the label, any whitespace run, the digit run maximal — the
capture is exactly that leading digit run, and `CONFIDENCE: 2 (high)`
yields `2`.  The embedding is total, so integer parsing raises nothing. -/
theorem C5_confidence_leading_digits :
    (∀ (b d : String) (i : EncodingInstance), _parse_block b d = some i →
      (confidenceValue b = none → i.confidence = -1) ∧
      (∀ cap : String, confidenceValue b = some cap →
        cap.data ≠ [] ∧ (∀ c ∈ cap.data, c.isDigit = true) ∧
        i.confidence = (natOfDigits cap.data : Int))) ∧
    (∀ b : String,
      (∀ n : Nat, n ≤ b.data.length → tryConfidenceAt (b.data.drop n) = none) →
      confidenceValue b = none) ∧
    (∀ pre label ws ds rest : List Char,
      dropCI "confidence:".data label = some [] →
      (∀ c ∈ ws, pyWs c = true) →
      ds ≠ [] → (∀ c ∈ ds, c.isDigit = true) →
      (∀ c ∈ rest.head?, c.isDigit = false) →
      (∀ n : Nat, n < pre.length →
        tryConfidenceAt ((pre ++ (label ++ (ws ++ (ds ++ rest)))).drop n) = none) →
      confidenceValue ⟨pre ++ (label ++ (ws ++ (ds ++ rest)))⟩ = some ⟨ds⟩) ∧
    parse_response "CONSTRUCT: X\nCONFIDENCE: 2 (high)" "" = [⟨"", "", "X", "", 2⟩] := by
  refine ⟨fun b d i h => ?_, fun b h => ?_, ?_, by decide⟩
  · have hf := (parse_block_fields h).2.2.2.2
    constructor
    · intro hn
      rw [hn] at hf
      exact hf
    · intro cap hc
      rw [hc] at hf
      have hf2 : i.confidence = confidenceOf cap := hf
      obtain ⟨hne, hdig⟩ := confidenceValue_digits hc
      refine ⟨hne, hdig, ?_⟩
      rw [hf2, confidenceOf_digits hne hdig]
  · unfold confidenceValue
    rw [searchField_none_of_drop b.data h]
    rfl
  · intro pre label ws ds rest hlab hws hne hds hrest hpre
    cases ds with
    | nil => exact absurd rfl hne
    | cons d ds' =>
      have htry : tryConfidenceAt (label ++ (ws ++ (d :: ds' ++ rest))) = some (d :: ds') := by
        unfold tryConfidenceAt matchLabel1
        have hdrop := dropCI_append (l := ws ++ (d :: ds' ++ rest)) hlab
        rw [List.nil_append] at hdrop
        rw [hdrop]
        show (match ((ws ++ (d :: ds' ++ rest)).dropWhile pyWs).takeWhile Char.isDigit with
              | [] => none
              | e :: es => some (e :: es)) = some (d :: ds')
        rw [dropWhile_append_sat hws, List.cons_append, List.dropWhile_cons,
          if_neg (by simp [digit_not_ws (hds d (by simp))])]
        rw [show d :: (ds' ++ rest) = (d :: ds') ++ rest from rfl]
        rw [takeWhile_append_all hds hrest]
      unfold confidenceValue
      show (searchField tryConfidenceAt
          (pre ++ (label ++ (ws ++ (d :: ds' ++ rest))))).map (fun l => pyStrip ⟨l⟩) =
        some ⟨d :: ds'⟩
      rw [searchField_append_of_drop pre _ hpre, searchField_of_tryAt htry]
      show some (pyStrip ⟨d :: ds'⟩) = some ⟨d :: ds'⟩
      congr 1
      apply String.ext
      show stripChars (d :: ds') = d :: ds'
      exact stripChars_all fun c hc => digit_not_ws (hds c hc)

end EncodingPrompter

namespace EncodingPrompter

/-- Witness for C5 at concrete multi-field blocks: a canonical block
whose confidence text is non-numeric parses with the `-1` sentinel, one
with `2 (high)` emits `2`, the pattern matches nowhere in a block with
digits in its doc id but a non-numeric confidence, and the leading digit
run is captured after a mixed-case label with preceding fields. -/
theorem C5_witness :
    (⟨"", "PA-001", "Test", "", -1⟩ : EncodingInstance).confidence = -1 ∧
    (⟨"a", "", "X", "", 2⟩ : EncodingInstance).confidence = (natOfDigits "2".data : Int) ∧
    confidenceValue "DOC_ID: d1\nCONFIDENCE: high" = none ∧
    confidenceValue "DOC_ID: d1\nConfidence: 2 (high)" = some "2" :=
  ⟨(C5_confidence_leading_digits.1 "SPEAKER_ID: PA-001\nCONSTRUCT: Test\nCONFIDENCE: invalid"
      "" ⟨"", "PA-001", "Test", "", -1⟩ (by rfl)).1 (by rfl),
   ((C5_confidence_leading_digits.1 "DOC_ID: a\nCONSTRUCT: X\nCONFIDENCE: 2 (high)" ""
      ⟨"a", "", "X", "", 2⟩ (by rfl)).2 "2" (by rfl)).2.2,
   C5_confidence_leading_digits.2.1 "DOC_ID: d1\nCONFIDENCE: high" (by decide),
   C5_confidence_leading_digits.2.2.1 "DOC_ID: d1\n".data "Confidence:".data [' '] ['2']
     " (high)".data (by decide) (by decide) (by decide) (by decide) (by decide) (by decide)⟩

/-- C10: `parse_response` does not restrict confidence to the nominal
range 0..2: every emitted instance's confidence is either the sentinel
`-1` or a non-negative integer — never validated or clamped — and a
confidence field of `99` is emitted as `99`. -/
theorem C10_confidence_unclamped :
    (∀ (t d : String) (i : EncodingInstance), i ∈ parse_response t d →
      i.confidence = -1 ∨ 0 ≤ i.confidence) ∧
    parse_response "CONSTRUCT: X\nCONFIDENCE: 99" "d" = [⟨"d", "", "X", "", 99⟩] := by
  constructor
  · intro t d i hi
    obtain ⟨b, -, hbc⟩ := mem_parse_response.mp hi
    obtain ⟨j, hp, -, rfl⟩ := mem_blockContribution hbc
    have hconf : (if d ≠ "" then { j with doc_id := d } else j).confidence = j.confidence := by
      by_cases hd : d = "" <;> simp [hd]
    rw [hconf]
    have hj := (parse_block_fields hp).2.2.2.2
    cases hcv : confidenceValue b with
    | none =>
      rw [hcv] at hj
      left
      exact hj
    | some cap =>
      rw [hcv] at hj
      have hj2 : j.confidence = confidenceOf cap := hj
      obtain ⟨hne, hdig⟩ := confidenceValue_digits hcv
      rw [confidenceOf_digits hne hdig] at hj2
      right
      rw [hj2]
      exact Int.ofNat_nonneg _
  · decide

/-- Witness for C10 at a concrete parse. -/
theorem C10_witness :
    (⟨"d", "", "X", "", 99⟩ : EncodingInstance).confidence = -1 ∨
      0 ≤ (⟨"d", "", "X", "", 99⟩ : EncodingInstance).confidence :=
  C10_confidence_unclamped.1 "CONSTRUCT: X\nCONFIDENCE: 99" "d" ⟨"d", "", "X", "", 99⟩
    (by decide)

end EncodingPrompter

namespace EncodingPrompter

/-! ## Claim C8 — loader error conditions -/

/-- C8 counterexample: the claim says a delimited (CSV) file with no
header/rows fails with an empty-input condition, but loading an empty
CSV file succeeds with an empty document: the `_load_csv` empty check
sits inside the table branch, which is entered only when the 2KB sample
contains a recognized column term — impossible for an empty file. -/
theorem C8_counterexample :
    load (.file "empty.csv" "") = .ok [⟨"empty", "", [], "empty.csv"⟩] := by rfl

/-- C8 (amended): `DocumentLoader.load` on a single path fails with a
not-found condition when the path does not exist and with an
unsupported-format condition naming the offending extension when the
file extension is unrecognized; a delimited (CSV) file with no
header/rows is loaded as a document with empty content and no speakers
(the empty-input condition is unreachable). -/
theorem C8_load_errors :
    (∀ p, load (.missing p) = .error (.pathNotFound p)) ∧
    (∀ n c : String, lowerStr (suffixOf n) ≠ ".txt" → lowerStr (suffixOf n) ≠ ".csv" →
      load (.file n c) = .error (.unsupportedFormat (lowerStr (suffixOf n)))) ∧
    load (.file "doc.csv" "") = .ok [⟨"doc", "", [], "doc.csv"⟩] := by
  refine ⟨fun p => rfl, fun n c h1 h2 => ?_, by rfl⟩
  show (_load_file n c).map (fun d => [d]) = _
  unfold _load_file
  simp only [h1, h2, if_false]
  rfl

/-- Witness for C8 at a concrete unrecognized extension. -/
theorem C8_witness :
    load (.file "f.xyz" "hello") = .error (.unsupportedFormat ".xyz") :=
  C8_load_errors.2.1 "f.xyz" "hello" (by decide) (by decide)

end EncodingPrompter

namespace EncodingPrompter

/-! ## Claim C9 — speaker detection -/

/-- Split a character list at newlines (Python `str.split("\n")`). -/
def splitOnNl : List Char → List (List Char)
  | [] => [[]]
  | c :: cs =>
    if c = '\n' then [] :: splitOnNl cs
    else
      match splitOnNl cs with
      | [] => [[c]]
      | b :: bs => (c :: b) :: bs

/-- Lines of a string, Python `str.split("\n")`. -/
def linesOf (s : String) : List String :=
  (splitOnNl s.data).map fun l => ⟨l⟩

/-- The header reading as the C9 claim words it, for comparison with the
source behaviour: tokens are taken from the line following a line that
is literally `SPEAKERS`. -/
def claimHeaderTokens_C9 (content : String) : List String :=
  match (linesOf content).findIdx? (fun l => l = "SPEAKERS") with
  | none => []
  | some i =>
    match (linesOf content).get? (i + 1) with
    | none => []
    | some line =>
      ((tokenRunsAux line.data []).filter (fun t => t.all tokenChar)).map fun l => ⟨l⟩

/-- Speaker detection as stated by claim C9. -/
def claimDetect_C9 (content : String) : List String :=
  pySorted ((claimHeaderTokens_C9 content ++ inlineMatches content).foldl setAdd [])

/-- C9 counterexample: the code's header pattern fires on any
occurrence of `SPEAKERS` at the end of a line, not only on a line that
is literally `SPEAKERS`; on `MY SPEAKERS\nAlice` the code detects
`Alice` while the claim's reading detects nothing. -/
theorem C9_counterexample :
    _extract_speakers "MY SPEAKERS\nAlice" = ["Alice"] ∧
    claimDetect_C9 "MY SPEAKERS\nAlice" = [] :=
  ⟨by rfl, by rfl⟩

theorem lexLe_total : ∀ xs ys : List Char, lexLe xs ys = true ∨ lexLe ys xs = true := by
  intro xs
  induction xs with
  | nil => intro ys; left; rfl
  | cons a xs ih =>
    intro ys
    cases ys with
    | nil => right; rfl
    | cons b ys =>
      unfold lexLe
      rcases Nat.lt_trichotomy a.toNat b.toNat with h | h | h
      · left; rw [if_pos h]
      · rw [if_neg (by omega), if_neg (by omega), if_neg (by omega), if_neg (by omega)]
        exact ih ys
      · right; rw [if_pos h]

theorem lexLe_trans : ∀ xs ys zs : List Char,
    lexLe xs ys = true → lexLe ys zs = true → lexLe xs zs = true := by
  intro xs
  induction xs with
  | nil => intro ys zs _ _; rfl
  | cons a xs ih =>
    intro ys zs h1 h2
    cases ys with
    | nil => simp [lexLe] at h1
    | cons b ys =>
      cases zs with
      | nil => simp [lexLe] at h2
      | cons c zs =>
        unfold lexLe at h1 h2 ⊢
        by_cases hab : a.toNat < b.toNat
        · rw [if_pos hab] at h1
          by_cases hbc : b.toNat < c.toNat
          · rw [if_pos (by omega : a.toNat < c.toNat)]
          · rw [if_neg hbc] at h2
            by_cases hcb : c.toNat < b.toNat
            · rw [if_pos hcb] at h2; exact absurd h2 (by simp)
            · rw [if_pos (by omega : a.toNat < c.toNat)]
        · rw [if_neg hab] at h1
          by_cases hba : b.toNat < a.toNat
          · rw [if_pos hba] at h1; exact absurd h1 (by simp)
          · rw [if_neg hba] at h1
            by_cases hbc : b.toNat < c.toNat
            · rw [if_pos (by omega : a.toNat < c.toNat)]
            · rw [if_neg hbc] at h2
              by_cases hcb : c.toNat < b.toNat
              · rw [if_pos hcb] at h2; exact absurd h2 (by simp)
              · rw [if_neg hcb] at h2
                rw [if_neg (by omega : ¬ a.toNat < c.toNat),
                  if_neg (by omega : ¬ c.toNat < a.toNat)]
                exact ih ys zs h1 h2

theorem insertLe_perm (x : String) : ∀ l : List String, (insertLe x l).Perm (x :: l) := by
  intro l
  induction l with
  | nil => exact List.Perm.refl _
  | cons y ys ih =>
    unfold insertLe
    by_cases h : lexLe x.data y.data = true
    · rw [if_pos h]
    · rw [if_neg h]
      exact (List.Perm.cons y ih).trans (List.Perm.swap x y ys)

theorem pySorted_perm : ∀ l : List String, (pySorted l).Perm l := by
  intro l
  induction l with
  | nil => exact List.Perm.refl _
  | cons x xs ih =>
    unfold pySorted
    exact (insertLe_perm x (pySorted xs)).trans (List.Perm.cons x ih)

theorem mem_insertLe {x z : String} : ∀ {l : List String}, z ∈ insertLe x l ↔ z = x ∨ z ∈ l := by
  intro l
  constructor
  · intro h
    rcases List.mem_cons.mp ((insertLe_perm x l).mem_iff.mp h) with h1 | h1
    · left; exact h1
    · right; exact h1
  · intro h
    apply (insertLe_perm x l).mem_iff.mpr
    simpa using h

theorem pairwise_insertLe {x : String} :
    ∀ {l : List String},
      List.Pairwise (fun a b : String => lexLe a.data b.data = true) l →
      List.Pairwise (fun a b : String => lexLe a.data b.data = true) (insertLe x l) := by
  intro l
  induction l with
  | nil => intro _; simp [insertLe]
  | cons y ys ih =>
    intro hp
    rw [List.pairwise_cons] at hp
    unfold insertLe
    by_cases h : lexLe x.data y.data = true
    · rw [if_pos h]
      rw [List.pairwise_cons]
      constructor
      · intro z hz
        rcases List.mem_cons.mp hz with rfl | hz2
        · exact h
        · exact lexLe_trans x.data y.data z.data h (hp.1 z hz2)
      · rw [List.pairwise_cons]
        exact hp
    · rw [if_neg h]
      rw [List.pairwise_cons]
      constructor
      · intro z hz
        rcases mem_insertLe.mp hz with rfl | hz2
        · rcases lexLe_total z.data y.data with h1 | h1
          · exact absurd h1 h
          · exact h1
        · exact hp.1 z hz2
      · exact ih hp.2

theorem pairwise_pySorted (l : List String) :
    List.Pairwise (fun a b : String => lexLe a.data b.data = true) (pySorted l) := by
  induction l with
  | nil => simp [pySorted]
  | cons x xs ih => exact pairwise_insertLe ih

theorem mem_setAdd {acc : List String} {x y : String} :
    x ∈ setAdd acc y ↔ x ∈ acc ∨ x = y := by
  unfold setAdd
  by_cases h : y ∈ acc
  · rw [if_pos h]
    constructor
    · exact Or.inl
    · rintro (h1 | rfl)
      · exact h1
      · exact h
  · rw [if_neg h]; simp

theorem mem_foldl_setAdd : ∀ (l acc : List String) (x : String),
    x ∈ l.foldl setAdd acc ↔ x ∈ acc ∨ x ∈ l := by
  intro l
  induction l with
  | nil => simp
  | cons y ys ih =>
    intro acc x
    rw [List.foldl_cons, ih, mem_setAdd, List.mem_cons]
    tauto

theorem nodup_setAdd {acc : List String} {y : String} (h : acc.Nodup) :
    (setAdd acc y).Nodup := by
  unfold setAdd
  by_cases hm : y ∈ acc
  · rw [if_pos hm]; exact h
  · rw [if_neg hm]
    rw [List.nodup_append]
    refine ⟨h, by simp, ?_⟩
    intro a ha hay
    rw [List.mem_singleton] at hay
    subst hay
    exact hm ha

theorem nodup_foldl_setAdd : ∀ (l acc : List String), acc.Nodup → (l.foldl setAdd acc).Nodup := by
  intro l
  induction l with
  | nil => intro acc h; exact h
  | cons y ys ih =>
    intro acc h
    rw [List.foldl_cons]
    exact ih _ (nodup_setAdd h)

/-- C9 (amended): speaker detection returns the de-duplicated union,
sorted lexicographically ascending by code point, of (a) the valid
tokens on the line captured by the header pattern — which fires on any
occurrence of the upper-case word `SPEAKERS` directly before a line
break, not only on a line that is literally `SPEAKERS` — and (b) the
captures of the three line-anchored inline patterns, all applied over
the whole text with matches accumulating. -/
theorem C9_detect_sorted_union (content : String) :
    List.Pairwise (fun a b : String => lexLe a.data b.data = true)
      (_extract_speakers content) ∧
    (_extract_speakers content).Nodup ∧
    (∀ x : String, x ∈ _extract_speakers content ↔
      x ∈ headerTokens content ∨ x ∈ inlineMatches content) := by
  unfold _extract_speakers
  refine ⟨pairwise_pySorted _, ?_, fun x => ?_⟩
  · rw [(pySorted_perm _).nodup_iff]
    exact nodup_foldl_setAdd _ [] (by simp)
  · rw [(pySorted_perm _).mem_iff, mem_foldl_setAdd, List.mem_append]
    simp

end EncodingPrompter
